import Mathlib

/-!
Shallow embedding of `coauthgraph` (src/coauthgraph/coauthgraph.py).

Python strings are modelled as lists of characters (`Str`); the string
operations the program uses (`split`, `strip`, `replace`, `<` on strings,
indexing) are given as executable Lean functions with the same semantics.
A Python exception (`IndexError` from `first_name[0]`, `KeyError` from
`entry['author']`) is modelled as `Option`/`Except` failure.
-/

namespace Coauth

/-- A Python string: a list of (unicode) characters. -/
abbrev Str := List Char

/-- Characters stripped by Python's `str.strip()`. -/
def isPySpace (c : Char) : Bool :=
  c = ' ' || c = '\t' || c = '\n' || c = '\r' || c = '\x0b' || c = '\x0c'

/-- Python `s.strip()`: remove leading and trailing whitespace. -/
def strip (s : Str) : Str :=
  ((s.dropWhile isPySpace).reverse.dropWhile isPySpace).reverse

/-- Python `s.replace('\n', ' ')`: every newline becomes a single space. -/
def replaceNewline (s : Str) : Str :=
  s.map (fun c => if c = '\n' then ' ' else c)

/-- Python `s.split(', ')`: split on each non-overlapping occurrence of
the two-character separator `", "`, scanning left to right. -/
def splitCommaSpace : Str → List Str
  | ',' :: ' ' :: rest => [] :: splitCommaSpace rest
  | [] => [[]]
  | c :: rest =>
    match splitCommaSpace rest with
    | [] => [[c]]
    | f :: fs => (c :: f) :: fs

/-- Python `s.split(' and ')`: split on each non-overlapping occurrence of
the five-character separator `" and "`, scanning left to right. -/
def splitAndSep : Str → List Str
  | ' ' :: 'a' :: 'n' :: 'd' :: ' ' :: rest => [] :: splitAndSep rest
  | [] => [[]]
  | c :: rest =>
    match splitAndSep rest with
    | [] => [[c]]
    | f :: fs => (c :: f) :: fs

/-- The `Name` class: a `last` name and a `first` initial. -/
structure Name where
  last : Str
  first : Str
deriving DecidableEq, Repr

/-- Constructor `Name.__init__`: split the input on `', '`; `last` is the stripped
first field when there are several fields, else the whole stripped string;
when there are exactly two fields, `first` is the first character of the
(unstripped) second field — `first_name[0]` raises `IndexError` when that
field is empty, modelled by `none`; otherwise `first` is empty. -/
def Name.make (string : Str) : Option Name :=
  let fields := splitCommaSpace string
  let last := if fields.length > 1 then strip (fields.headD []) else strip string
  if fields.length = 2 then
    match fields.getD 1 [] with
    | [] => none
    | initial :: _ => some ⟨last, [initial]⟩
  else
    some ⟨last, []⟩

/-- Python `<` on strings: lexicographic by character code, a proper
prefix is smaller. -/
def strLt : Str → Str → Bool
  | [], [] => false
  | [], _ :: _ => true
  | _ :: _, [] => false
  | a :: as, b :: bs => if a < b then true else if b < a then false else strLt as bs

/-- Comparison `Name.__lt__`: Python tuple comparison `(last, first) < (last, first)`. -/
def Name.ltb (a b : Name) : Bool :=
  strLt a.last b.last || (a.last = b.last && strLt a.first b.first)

/-- Display `Name.__str__`: `"<first> <last>"` when `first` is non-empty, else `last`. -/
def Name.display (n : Name) : Str :=
  if n.first ≠ [] then n.first ++ ' ' :: n.last else n.last

/-- An undirected co-authorship edge, stored as an ordered pair. -/
abbrev Edge := Name × Name

/-- Python `tuple(sorted([a, b]))` on a two-element list of `Name`s:
swap when the second compares below the first under `Name.__lt__`. -/
def mkEdge (a b : Name) : Edge :=
  if Name.ltb b a then (b, a) else (a, b)

/-- A parsed bibliography entry, as the program sees it: the `'author'`
field may be missing (`entry['author']` then raises `KeyError`). -/
structure Entry where
  author : Option Str

/-- Failures that abort `process_bibtex`. -/
inductive ProcError where
  | keyError
  | indexError
deriving DecidableEq, Repr

/-- The per-entry author extraction inside `process_bibtex`: replace
newlines with spaces, split on `' and '`, strip each piece and build a
`Name`; any `IndexError` inside `Name.__init__` propagates. -/
def extractAuthors (author_list : Str) : Option (List Name) :=
  (splitAndSep (replaceNewline author_list)).mapM (fun nm => Name.make (strip nm))

/-- Python `set.add`, with the set modelled as a duplicate-free list in
insertion order. -/
def insertNew {α : Type} [DecidableEq α] (x : α) (s : List α) : List α :=
  if x ∈ s then s else s ++ [x]

/-- The double loop `for author1_index … for author2_index in
range(author1_index + 1, …)`: all index pairs `i < j` of the list. -/
def allPairs : List Name → List (Name × Name)
  | [] => []
  | x :: xs => (xs.map fun y => (x, y)) ++ allPairs xs

/-- The body of `process_bibtex`'s entry loop: look up the `'author'`
field, extract the names, dedup them into the per-entry author set, add
them to the global author set, and add the canonical sorted pair of every
two distinct per-entry authors to the edge set. -/
def processEntry (acc : List Name × List Edge) (entry : Entry) :
    Except ProcError (List Name × List Edge) :=
  match entry.author with
  | none => .error .keyError
  | some author_list =>
    match extractAuthors author_list with
    | none => .error .indexError
    | some authors_names =>
      let paper_authors := authors_names.foldl (fun s n => insertNew n s) []
      let all_authors := authors_names.foldl (fun s n => insertNew n s) acc.1
      let edges := (allPairs paper_authors).foldl
        (fun es p => insertNew (mkEdge p.1 p.2) es) acc.2
      .ok (all_authors, edges)

/-- The entry loop of `process_bibtex`, threading the author and edge
sets; the first exception aborts the whole loop. -/
def processEntries (acc : List Name × List Edge) :
    List Entry → Except ProcError (List Name × List Edge)
  | [] => .ok acc
  | e :: es =>
    match processEntry acc e with
    | .error err => .error err
    | .ok acc2 => processEntries acc2 es

/-- Function `process_bibtex`: fold the entry loop from empty author and edge sets. -/
def process_bibtex (entries : List Entry) :
    Except ProcError (List Name × List Edge) :=
  processEntries ([], []) entries

/-- One printed line of `render_to_json`: a node declaration carrying a
display string, or an edge declaration carrying a numeric id and the two
endpoints' display strings. -/
inductive Fragment where
  | node (id : Str)
  | edge (id : Nat) (source target : Str)
deriving DecidableEq, Repr

/-- The filter in `render_to_json`:
`author1.last == 'Pope' or author2.last == 'Pope'`. -/
def popeFilter (e : Edge) : Bool :=
  e.1.last = "Pope".data || e.2.last = "Pope".data

/-- First loop of `render_to_json`: for each edge passing the filter,
print a node line for each endpoint not yet in `seen_authors`, adding it
to `seen_authors`. -/
def renderNodes : List Edge → List Name → List Fragment
  | [], _ => []
  | e :: es, seen =>
    if popeFilter e then
      let frags1 : List Fragment :=
        if e.1 ∈ seen then [] else [Fragment.node e.1.display]
      let seen1 := if e.1 ∈ seen then seen else seen ++ [e.1]
      let frags2 : List Fragment :=
        if e.2 ∈ seen1 then [] else [Fragment.node e.2.display]
      let seen2 := if e.2 ∈ seen1 then seen1 else seen1 ++ [e.2]
      frags1 ++ frags2 ++ renderNodes es seen2
    else renderNodes es seen

/-- Second loop of `render_to_json`: for each edge passing the filter,
print an edge line with the running id, then increment the id. -/
def renderEdges : List Edge → Nat → List Fragment
  | [], _ => []
  | e :: es, id =>
    if popeFilter e then
      Fragment.edge id e.1.display e.2.display :: renderEdges es (id + 1)
    else renderEdges es id

set_option linter.unusedVariables false in
/-- Function `render_to_json(all_authors, edges)`: the node pass (with
`seen_authors` initially empty) followed by the edge pass (with `id`
initially 0); the loop over `all_authors` is commented out in the source,
so the argument is unused. Both passes iterate `edges` in the same order,
as Python set iteration does within one run. -/
def render_to_json (all_authors : List Name) (edges : List Edge) : List Fragment :=
  renderNodes edges [] ++ renderEdges edges 0

/-- Function `main` after argument parsing: process the entries, then render; an
exception from processing aborts before any rendering. -/
def main_output (entries : List Entry) : Except ProcError (List Fragment) :=
  match process_bibtex entries with
  | .error err => .error err
  | .ok (all_authors, edges) => .ok (render_to_json all_authors edges)

/-- Modelled from the spec: variant B (the author frequency map, §3 and
§4.4) is described by the specification but absent from the source tree;
"for each entry, for each listed author occurrence (no per-entry dedup
here), increment that Name's counter by 1, starting from 0 if unseen".
The map is an association list keyed by `Name`. -/
def bumpCount : List (Name × Nat) → Name → List (Name × Nat)
  | [], n => [(n, 1)]
  | (m, c) :: rest, n =>
    if m = n then (m, c + 1) :: rest else (m, c) :: bumpCount rest n

/-- Modelled from the spec: one entry's contribution to the frequency map
(§4.4); author extraction is shared with variant A (§4.2), so a missing
`author` field or a name `IndexError` propagates as in variant A. -/
def buildFrequencyEntry (freq : List (Name × Nat)) (entry : Entry) :
    Except ProcError (List (Name × Nat)) :=
  match entry.author with
  | none => .error .keyError
  | some author_list =>
    match extractAuthors author_list with
    | none => .error .indexError
    | some authors_names => .ok (authors_names.foldl bumpCount freq)

/-- Modelled from the spec: `build_frequency(entries)` (§4.4), folding the
per-entry counting over all entries from the empty map. -/
def build_frequency : List (Name × Nat) → List Entry →
    Except ProcError (List (Name × Nat))
  | freq, [] => .ok freq
  | freq, e :: es =>
    match buildFrequencyEntry freq e with
    | .error err => .error err
    | .ok freq2 => build_frequency freq2 es

/-- The non-strict Name order `a ≤ b`, the complement of `Name.__lt__`
the other way around. -/
def Name.leb (a b : Name) : Bool :=
  !Name.ltb b a

/-- Modelled from the spec: the order in which §4.6 iterates the
frequency map — ascending by the `(last, first)` Name ordering. -/
def freqOrder (p q : Name × Nat) : Prop :=
  Name.leb p.1 q.1 = true

instance freqOrder.decidableRel : DecidableRel freqOrder := by
  intro p q
  unfold freqOrder
  infer_instance

/-- Modelled from the spec: one line of the frequency listing (§4.6),
`"<display string> <count>"`, the count printed in decimal. -/
def freqLine (p : Name × Nat) : Str :=
  p.1.display ++ ' ' :: Nat.toDigits 10 p.2

/-- Modelled from the spec: `render_frequency(freq_map)` (§4.6) — iterate
the Names in ascending Name order, one line per Name. -/
def render_frequency (freq : List (Name × Nat)) : List Str :=
  (List.insertionSort freqOrder freq).map freqLine

/-- The order in which the node pass of `render_to_json` first sees the
endpoints of the edges passing the filter: the final value of
`seen_authors`, grown from `seen`. -/
def nodeOrder : List Edge → List Name → List Name
  | [], seen => seen
  | e :: es, seen =>
    if popeFilter e then
      let seen1 := if e.1 ∈ seen then seen else seen ++ [e.1]
      let seen2 := if e.2 ∈ seen1 then seen1 else seen1 ++ [e.2]
      nodeOrder es seen2
    else nodeOrder es seen

/-- Whether a printed fragment is an edge declaration. -/
def isEdgeFrag : Fragment → Bool
  | .node _ => false
  | .edge _ _ _ => true

/-! ### Order lemmas for the Python string and Name comparisons -/

theorem strLt_nil_right (a : Str) : strLt a [] = false := by
  cases a <;> rfl

theorem strLt_cons_iff {a b : Char} {as bs : Str} :
    strLt (a :: as) (b :: bs) = true ↔ a < b ∨ (a = b ∧ strLt as bs = true) := by
  simp only [strLt]
  rcases lt_trichotomy a b with h | h | h
  · simp [h]
  · simp [h, lt_irrefl]
  · simp [not_lt_of_gt h, h, h.ne']

theorem strLt_irrefl (a : Str) : strLt a a = false := by
  induction a with
  | nil => rfl
  | cons c cs ih => simp [strLt, ih]

theorem strLt_trans : ∀ {a b c : Str},
    strLt a b = true → strLt b c = true → strLt a c = true
  | _, b, [], _, h2 => by rw [strLt_nil_right] at h2; exact absurd h2 (by simp)
  | [], _, _ :: _, _, _ => rfl
  | _ :: _, [], _, h1, _ => by
    rw [strLt_nil_right] at h1; exact absurd h1 (by simp)
  | a :: as, b :: bs, c :: cs, h1, h2 => by
    rw [strLt_cons_iff] at h1 h2 ⊢
    rcases h1 with h1 | ⟨rfl, h1⟩
    · rcases h2 with h2 | ⟨rfl, h2⟩
      · exact Or.inl (h1.trans h2)
      · exact Or.inl h1
    · rcases h2 with h2 | ⟨rfl, h2⟩
      · exact Or.inl h2
      · exact Or.inr ⟨rfl, strLt_trans h1 h2⟩

theorem strLt_eq_of_not_lt : ∀ {a b : Str},
    strLt a b = false → strLt b a = false → a = b
  | [], [], _, _ => rfl
  | [], _ :: _, h1, _ => by exact absurd h1 (by simp [strLt])
  | _ :: _, [], _, h2 => by exact absurd h2 (by simp [strLt])
  | a :: as, b :: bs, h1, h2 => by
    have h1' := h1
    rw [Bool.eq_false_iff, Ne, strLt_cons_iff] at h1 h2
    push_neg at h1 h2
    rcases lt_trichotomy a b with h | rfl | h
    · exact absurd h (not_lt.mpr h1.1)
    · exact congrArg (a :: ·) (strLt_eq_of_not_lt
        (Bool.eq_false_iff.mpr (h1.2 rfl)) (Bool.eq_false_iff.mpr (h2.2 rfl)))
    · exact absurd h (not_lt.mpr h2.1)

theorem strLt_asymm {a b : Str} (h : strLt a b = true) : strLt b a = false := by
  by_contra hc
  rw [Bool.not_eq_false] at hc
  have := strLt_trans h hc
  rw [strLt_irrefl] at this
  exact absurd this (by simp)

theorem Name.ltb_iff {a b : Name} :
    Name.ltb a b = true ↔
      strLt a.last b.last = true ∨ (a.last = b.last ∧ strLt a.first b.first = true) := by
  simp [Name.ltb, Bool.or_eq_true, Bool.and_eq_true, decide_eq_true_iff]

theorem Name.ltb_irrefl (a : Name) : Name.ltb a a = false := by
  simp [Name.ltb, strLt_irrefl]

theorem Name.ltb_trans {a b c : Name} (h1 : Name.ltb a b = true)
    (h2 : Name.ltb b c = true) : Name.ltb a c = true := by
  rw [Name.ltb_iff] at h1 h2 ⊢
  rcases h1 with h1 | ⟨hl1, h1⟩
  · rcases h2 with h2 | ⟨hl2, h2⟩
    · exact Or.inl (strLt_trans h1 h2)
    · exact Or.inl (hl2 ▸ h1)
  · rcases h2 with h2 | ⟨hl2, h2⟩
    · exact Or.inl (hl1 ▸ h2)
    · exact Or.inr ⟨hl1.trans hl2, strLt_trans h1 h2⟩

theorem Name.ltb_asymm {a b : Name} (h : Name.ltb a b = true) :
    Name.ltb b a = false := by
  by_contra hc
  rw [Bool.not_eq_false] at hc
  have := Name.ltb_trans h hc
  rw [Name.ltb_irrefl] at this
  exact absurd this (by simp)

theorem Name.ltb_conn {a b : Name} (h : a ≠ b) :
    Name.ltb a b = true ∨ Name.ltb b a = true := by
  by_contra hc
  push_neg at hc
  obtain ⟨h1, h2⟩ := hc
  have h1' : ¬(strLt a.last b.last = true ∨
      (a.last = b.last ∧ strLt a.first b.first = true)) := by
    rw [← Name.ltb_iff]
    exact h1
  have h2' : ¬(strLt b.last a.last = true ∨
      (b.last = a.last ∧ strLt b.first a.first = true)) := by
    rw [← Name.ltb_iff]
    exact h2
  push_neg at h1' h2'
  have hlast : a.last = b.last := strLt_eq_of_not_lt
    (Bool.eq_false_iff.mpr h1'.1) (Bool.eq_false_iff.mpr h2'.1)
  have hfirst : a.first = b.first := strLt_eq_of_not_lt
    (Bool.eq_false_iff.mpr (h1'.2 hlast)) (Bool.eq_false_iff.mpr (h2'.2 hlast.symm))
  exact h (by cases a; cases b; simp_all)

theorem mkEdge_comm {a b : Name} (h : a ≠ b) : mkEdge a b = mkEdge b a := by
  unfold mkEdge
  rcases Name.ltb_conn h with hab | hba
  · rw [Name.ltb_asymm hab, hab]
    rfl
  · rw [Name.ltb_asymm hba, hba]
    rfl

theorem mkEdge_sorted {a b : Name} (h : a ≠ b) :
    Name.ltb (mkEdge a b).1 (mkEdge a b).2 = true := by
  unfold mkEdge
  cases hba : Name.ltb b a with
  | true => simpa using hba
  | false =>
    rcases Name.ltb_conn h with hab | hba2
    · simpa using hab
    · rw [hba] at hba2
      exact absurd hba2 (by simp)

instance : IsTotal (Name × Nat) freqOrder := by
  constructor
  intro p q
  unfold freqOrder Name.leb
  by_contra hc
  push_neg at hc
  obtain ⟨h1, h2⟩ := hc
  simp only [Bool.not_eq_true, Bool.not_eq_false'] at h1 h2
  have := Name.ltb_asymm h1
  rw [h2] at this
  exact absurd this (by simp)

instance : IsTrans (Name × Nat) freqOrder := by
  constructor
  intro p q r h1 h2
  unfold freqOrder Name.leb at h1 h2 ⊢
  simp only [Bool.not_eq_true'] at h1 h2 ⊢
  by_contra hc
  rw [Bool.not_eq_false] at hc
  by_cases hqr : r.1 = q.1
  · rw [hqr] at hc
    rw [hc] at h1
    exact absurd h1 (by simp)
  · rcases Name.ltb_conn hqr with h | h
    · rw [h] at h2
      exact absurd h2 (by simp)
    · have := Name.ltb_trans h hc
      rw [this] at h1
      exact absurd h1 (by simp)

end Coauth

-- scratch tests
example : Coauth.splitCommaSpace "Pope, Bernard".data = ["Pope".data, "Bernard".data] := by decide
example : Coauth.Name.make "Pope, Bernard".data = some ⟨"Pope".data, "B".data⟩ := by decide
example : Coauth.Name.make "Pope, ".data = none := by decide
example : Coauth.Name.make "Pope,  Bernard".data = some ⟨"Pope".data, [' ']⟩ := by decide
example : Coauth.Name.make "Pope, Bernard, Extra".data = some ⟨"Pope".data, []⟩ := by rfl
example : Coauth.Name.make "".data = some ⟨[], []⟩ := by decide
example : Coauth.splitAndSep "Pope, Bernard and Smith, John".data =
    ["Pope, Bernard".data, "Smith, John".data] := by decide
example : Coauth.strLt "Pope".data "Smith".data = true := by decide
example : Coauth.process_bibtex [⟨some "Pope, Bernard and Smith, John".data⟩] =
    .ok ([⟨"Pope".data, "B".data⟩, ⟨"Smith".data, "J".data⟩],
         [(⟨"Pope".data, "B".data⟩, ⟨"Smith".data, "J".data⟩)]) := by rfl
example : Coauth.render_to_json [] [(⟨"Pope".data, "B".data⟩, ⟨"Smith".data, "J".data⟩)] =
    [.node "B Pope".data, .node "J Smith".data,
     .edge 0 "B Pope".data "J Smith".data] := by decide
example : Coauth.main_output [⟨some "Pope, Bernard and Smith, John".data⟩,
    ⟨some "Smith, John and Lee, Amy".data⟩] =
    .ok [.node "B Pope".data, .node "J Smith".data,
         .edge 0 "B Pope".data "J Smith".data] := by rfl
example : Coauth.main_output [⟨some "Pope, Bernard".data⟩, ⟨none⟩] =
    .error .keyError := by rfl

namespace Coauth

/-! ### Claim C1: totality of the name normalizer -/

/-- C1 counterexample: the claim says every input string yields a `Name`,
naming `"Pope, "` (empty first-name portion after `", "`) as an example;
but on `"Pope, "` the constructor `Name.__init__` evaluates
`first_name[0]` on the empty string and raises `IndexError`, modelled
here as `none`. -/
theorem nameMake_total_counterexample :
    Name.make ("Pope, ".data) = none ∧ ("Pope, ".data ≠ ([] : Str)) := by
  exact ⟨rfl, by decide⟩

/-- C1 (amended): constructing a `Name` succeeds for every input string
EXCEPT those that split on `", "` into exactly two fields with an empty
second field (such as `"Pope, "`), where the lookup of the first
character of the empty first-name portion fails; the empty string still
yields a `Name` with `last = ""` and `first = ""`. -/
theorem nameMake_total_amended (s : Str) :
    ((Name.make s).isSome = true ↔
      ¬((splitCommaSpace s).length = 2 ∧ (splitCommaSpace s).getD 1 [] = [])) ∧
    Name.make [] = some ⟨[], []⟩ := by
  refine ⟨?_, rfl⟩
  unfold Name.make
  by_cases hl : (splitCommaSpace s).length = 2
  · obtain ⟨f0, f1, hs⟩ := List.length_eq_two.mp hl
    cases f1 with
    | nil => simp [hs]
    | cons c cs => simp [hs]
  · simp [hl]

/-! ### Claim C2: the two-field case of the name normalizer -/

/-- C2 counterexample: `"Pope,  Bernard"` (two spaces after the comma)
contains exactly one occurrence of `", "`, and the claim says `first`
becomes the first character of the trimmed first-name portion, i.e.
`"B"`; the code takes the first character of the UNtrimmed portion
`" Bernard"`, so `first` is the single space, not `"B"`. -/
theorem nameMake_two_fields_counterexample :
    (splitCommaSpace ("Pope,  Bernard".data)).length = 2 ∧
    Name.make ("Pope,  Bernard".data) = some ⟨"Pope".data, [' ']⟩ ∧
    ([' '] : Str) ≠ ['B'] := by
  exact ⟨by decide, by decide, by decide⟩

/-- C2 (amended): for every input string splitting on `", "` into exactly
two fields, `last` is the trimmed field before the `", "`; when the field
after the `", "` is non-empty, `first` is its first character taken
WITHOUT trimming (so `"Pope,  Bernard"` yields `first = " "`); when that
field is empty, construction fails. -/
theorem nameMake_two_fields_amended (s f0 f1 : Str)
    (h : splitCommaSpace s = [f0, f1]) :
    (f1 = [] → Name.make s = none) ∧
    (∀ c cs, f1 = c :: cs → Name.make s = some ⟨strip f0, [c]⟩) := by
  constructor
  · intro hf1
    subst hf1
    unfold Name.make
    simp [h]
  · intro c cs hf1
    subst hf1
    unfold Name.make
    simp [h]

/-- C2 witness: the amended claim applied to `"Pope, Bernard"`. -/
theorem nameMake_two_fields_amended_witness :
    Name.make ("Pope, Bernard".data) = some ⟨strip "Pope".data, ['B']⟩ :=
  (nameMake_two_fields_amended ("Pope, Bernard".data) ("Pope".data)
    ("Bernard".data) (by decide)).2 'B' ("ernard".data) (by decide)

/-! ### Claim C3: the reference cases of the name normalizer -/

/-- C3: the three reference cases hold — `"Pope, Bernard"` gives
`last = "Pope", first = "B"`; `"Pope"` gives `last = "Pope", first = ""`;
`"Pope, Bernard, Extra"` gives `last = "Pope", first = ""`; and in
general every input splitting into more than two fields gives an empty
`first` and `last` equal to the trimmed field before the first `", "`. -/
theorem nameMake_reference_cases :
    Name.make ("Pope, Bernard".data) = some ⟨"Pope".data, "B".data⟩ ∧
    Name.make ("Pope".data) = some ⟨"Pope".data, []⟩ ∧
    Name.make ("Pope, Bernard, Extra".data) = some ⟨"Pope".data, []⟩ ∧
    ∀ s : Str, 2 < (splitCommaSpace s).length →
      Name.make s = some ⟨strip ((splitCommaSpace s).headD []), []⟩ := by
  refine ⟨by decide, by decide, by decide, ?_⟩
  intro s hs
  unfold Name.make
  have h2 : (splitCommaSpace s).length ≠ 2 := by omega
  have h1 : (splitCommaSpace s).length > 1 := by omega
  simp [h1, h2]

/-- C3 witness: the general multi-field part applied to
`"Pope, Bernard, Extra"`. -/
theorem nameMake_reference_cases_witness :
    Name.make ("Pope, Bernard, Extra".data) =
      some ⟨strip ((splitCommaSpace ("Pope, Bernard, Extra".data)).headD []), []⟩ :=
  nameMake_reference_cases.2.2.2 ("Pope, Bernard, Extra".data) (by decide)

/-! ### Set-as-list lemmas for the graph builder -/

theorem insertNew_nodup {α : Type} [DecidableEq α] {x : α} {s : List α}
    (h : s.Nodup) : (insertNew x s).Nodup := by
  unfold insertNew
  by_cases hx : x ∈ s
  · simpa [hx] using h
  · simp [hx, List.nodup_append, h]

theorem mem_insertNew {α : Type} [DecidableEq α] {x y : α} {s : List α} :
    y ∈ insertNew x s ↔ y ∈ s ∨ y = x := by
  unfold insertNew
  by_cases hx : x ∈ s
  · simp only [hx, if_true]
    constructor
    · exact Or.inl
    · rintro (h | rfl)
      · exact h
      · exact hx
  · simp [hx]

theorem foldl_insertNew_nodup {α β : Type} [DecidableEq α] (f : β → α) :
    ∀ (l : List β) (s : List α), s.Nodup →
      (l.foldl (fun acc b => insertNew (f b) acc) s).Nodup
  | [], _, h => h
  | _ :: l, _, h => foldl_insertNew_nodup f l _ (insertNew_nodup h)

theorem mem_foldl_insertNew {α β : Type} [DecidableEq α] (f : β → α) :
    ∀ (l : List β) (s : List α) (y : α),
      (y ∈ l.foldl (fun acc b => insertNew (f b) acc) s ↔
        y ∈ s ∨ ∃ b ∈ l, y = f b)
  | [], s, y => by simp
  | b :: l, s, y => by
    rw [List.foldl_cons, mem_foldl_insertNew f l _ y, mem_insertNew]
    simp only [List.mem_cons]
    constructor
    · rintro ((h | rfl) | ⟨b2, hb2, rfl⟩)
      · exact Or.inl h
      · exact Or.inr ⟨b, Or.inl rfl, rfl⟩
      · exact Or.inr ⟨b2, Or.inr hb2, rfl⟩
    · rintro (h | ⟨b2, (rfl | hb2), rfl⟩)
      · exact Or.inl (Or.inl h)
      · exact Or.inl (Or.inr rfl)
      · exact Or.inr ⟨b2, hb2, rfl⟩

theorem allPairs_mem_distinct : ∀ {l : List Name}, l.Nodup →
    ∀ p ∈ allPairs l, p.1 ≠ p.2
  | [], _, p, hp => absurd hp (by simp [allPairs])
  | x :: xs, h, p, hp => by
    simp only [allPairs, List.mem_append, List.mem_map] at hp
    rcases hp with ⟨y, hy, rfl⟩ | hp
    · have hx : x ∉ xs := (List.nodup_cons.mp h).1
      intro hxy
      simp only at hxy
      exact hx (hxy ▸ hy)
    · exact allPairs_mem_distinct (List.nodup_cons.mp h).2 p hp

/-- Generic preservation of an edge-set invariant through the entry loop. -/
theorem processEntries_preserve (P : List Edge → Prop)
    (hstep : ∀ acc entry acc2, P acc.2 →
      processEntry acc entry = .ok acc2 → P acc2.2) :
    ∀ (entries : List Entry) (acc : List Name × List Edge)
      (authors : List Name) (edges : List Edge), P acc.2 →
      processEntries acc entries = .ok (authors, edges) → P edges
  | [], acc, authors, edges, hP, h => by
    unfold processEntries at h
    cases h
    exact hP
  | e :: es, acc, authors, edges, hP, h => by
    unfold processEntries at h
    cases he : processEntry acc e with
    | error err => rw [he] at h; cases h
    | ok acc2 =>
      rw [he] at h
      exact processEntries_preserve P hstep es acc2 authors edges
        (hstep acc e acc2 hP he) h

/-- The edges added by one entry are canonical pairs of distinct
per-entry authors: they are strictly ascending under `Name.__lt__`. -/
theorem processEntry_edges_sorted (acc : List Name × List Edge)
    (entry : Entry) (acc2 : List Name × List Edge)
    (hinv : ∀ e ∈ acc.2, Name.ltb e.1 e.2 = true)
    (h : processEntry acc entry = .ok acc2) :
    ∀ e ∈ acc2.2, Name.ltb e.1 e.2 = true := by
  unfold processEntry at h
  split at h
  · cases h
  · split at h
    · cases h
    · rename_i authors_names heq
      cases h
      intro e he
      simp only at he
      rw [mem_foldl_insertNew (fun p : Name × Name => mkEdge p.1 p.2)] at he
      rcases he with he | ⟨p, hp, rfl⟩
      · exact hinv e he
      · exact mkEdge_sorted (allPairs_mem_distinct
          (foldl_insertNew_nodup (fun n => n) authors_names [] List.nodup_nil)
          p hp)

/-- Edge sets stay duplicate-free through one entry. -/
theorem processEntry_edges_nodup (acc : List Name × List Edge)
    (entry : Entry) (acc2 : List Name × List Edge)
    (hinv : acc.2.Nodup) (h : processEntry acc entry = .ok acc2) :
    acc2.2.Nodup := by
  unfold processEntry at h
  split at h
  · cases h
  · split at h
    · cases h
    · cases h
      exact foldl_insertNew_nodup (fun p : Name × Name => mkEdge p.1 p.2) _ _ hinv

theorem Name.ltb_ne {a b : Name} (h : Name.ltb a b = true) : a ≠ b := by
  intro hab
  subst hab
  rw [Name.ltb_irrefl] at h
  exact absurd h (by simp)

/-! ### Claim C5: edges are sorted pairs of distinct names -/

/-- C5: for every list of entries that processes successfully, every
element of the resulting edge set is strictly ascending under the Name
ordering on `(last, first)` — in particular its two endpoints are
distinct, so no self-edge ever occurs. -/
theorem edges_sorted_no_self_edge (entries : List Entry)
    (authors : List Name) (edges : List Edge)
    (h : process_bibtex entries = .ok (authors, edges)) :
    ∀ e ∈ edges, Name.ltb e.1 e.2 = true ∧ e.1 ≠ e.2 := by
  intro e he
  have hsorted := processEntries_preserve (fun es => ∀ e ∈ es, Name.ltb e.1 e.2 = true)
    (fun acc entry acc2 hP hstep => processEntry_edges_sorted acc entry acc2 hP hstep)
    entries ([], []) authors edges (by intro e he; cases he) h e he
  exact ⟨hsorted, Name.ltb_ne hsorted⟩

/-- C5 witness: an entry listing the same author string twice produces
no self-edge — its single edge is well-sorted with distinct endpoints. -/
theorem edges_sorted_no_self_edge_witness :
    Name.ltb ⟨"Pope".data, "B".data⟩ ⟨"Smith".data, "J".data⟩ = true ∧
    (⟨"Pope".data, "B".data⟩ : Name) ≠ ⟨"Smith".data, "J".data⟩ :=
  edges_sorted_no_self_edge
    [⟨some "Pope, Bernard and Smith, John and Pope, Bernard".data⟩]
    [⟨"Pope".data, "B".data⟩, ⟨"Smith".data, "J".data⟩]
    [(⟨"Pope".data, "B".data⟩, ⟨"Smith".data, "J".data⟩)] (by rfl)
    (⟨"Pope".data, "B".data⟩, ⟨"Smith".data, "J".data⟩) (by decide)

/-! ### Claim C6: canonicalization is symmetric and edges deduplicate -/

/-- C6: the canonical sorted pair for `(A,B)` equals the one for `(B,A)`
for distinct `A`, `B`, and the aggregate edge set of a successful run is
duplicate-free, so the same unordered pair arising from several entries
contributes exactly one edge. -/
theorem edge_canonical_symm_dedup :
    (∀ a b : Name, a ≠ b → mkEdge a b = mkEdge b a) ∧
    (∀ (entries : List Entry) (authors : List Name) (edges : List Edge),
      process_bibtex entries = .ok (authors, edges) → edges.Nodup) := by
  refine ⟨fun a b hab => mkEdge_comm hab, fun entries authors edges h => ?_⟩
  exact processEntries_preserve List.Nodup
    (fun acc entry acc2 hP hstep => processEntry_edges_nodup acc entry acc2 hP hstep)
    entries ([], []) authors edges List.nodup_nil h

/-- C6 witness: symmetry at two concrete distinct names, and processing
the same two-author entry twice yields exactly the one edge. -/
theorem edge_canonical_symm_dedup_witness :
    mkEdge ⟨"Pope".data, "B".data⟩ ⟨"Smith".data, "J".data⟩ =
      mkEdge ⟨"Smith".data, "J".data⟩ ⟨"Pope".data, "B".data⟩ ∧
    ([((⟨"Pope".data, "B".data⟩ : Name), (⟨"Smith".data, "J".data⟩ : Name))]).Nodup :=
  ⟨edge_canonical_symm_dedup.1 ⟨"Pope".data, "B".data⟩ ⟨"Smith".data, "J".data⟩
      (by decide),
   edge_canonical_symm_dedup.2
     [⟨some "Pope, Bernard and Smith, John".data⟩,
      ⟨some "Pope, Bernard and Smith, John".data⟩]
     [⟨"Pope".data, "B".data⟩, ⟨"Smith".data, "J".data⟩]
     [(⟨"Pope".data, "B".data⟩, ⟨"Smith".data, "J".data⟩)] (by rfl)⟩

/-! ### Claim C9: a missing author field aborts the whole run -/

theorem processEntries_append (l1 l2 : List Entry)
    (acc : List Name × List Edge) :
    processEntries acc (l1 ++ l2) =
      match processEntries acc l1 with
      | .error err => .error err
      | .ok acc2 => processEntries acc2 l2 := by
  induction l1 generalizing acc with
  | nil => rfl
  | cons e es ih =>
    simp only [List.cons_append, processEntries]
    cases processEntry acc e with
    | error err => rfl
    | ok acc2 => exact ih acc2

/-- C9: if an entry has no author field, the run fails with the
missing-field (`KeyError`) error as soon as that entry is reached — the
entries after it are never consulted, the entry is not skipped, and
`main` produces no rendered output, because rendering starts only after
every entry has been processed. -/
theorem missing_author_aborts (pre : List Entry) (entry : Entry)
    (post : List Entry) (st : List Name × List Edge)
    (hpre : process_bibtex pre = .ok st) (hmiss : entry.author = none) :
    process_bibtex (pre ++ entry :: post) = .error .keyError ∧
    main_output (pre ++ entry :: post) = .error .keyError := by
  have hp : process_bibtex (pre ++ entry :: post) = .error .keyError := by
    unfold process_bibtex at hpre ⊢
    rw [processEntries_append, hpre]
    simp only [processEntries, processEntry, hmiss]
  refine ⟨hp, ?_⟩
  unfold main_output
  rw [hp]

/-- C9 witness: a well-formed entry followed by an entry without an
author field aborts the whole run with the missing-field error. -/
theorem missing_author_aborts_witness :
    process_bibtex ([⟨some "Pope, Bernard and Smith, John".data⟩] ++
      (⟨none⟩ : Entry) :: [⟨some "Lee, Amy".data⟩]) = .error .keyError ∧
    main_output ([⟨some "Pope, Bernard and Smith, John".data⟩] ++
      (⟨none⟩ : Entry) :: [⟨some "Lee, Amy".data⟩]) = .error .keyError :=
  missing_author_aborts [⟨some "Pope, Bernard and Smith, John".data⟩]
    ⟨none⟩ [⟨some "Lee, Amy".data⟩]
    ([⟨"Pope".data, "B".data⟩, ⟨"Smith".data, "J".data⟩],
     [(⟨"Pope".data, "B".data⟩, ⟨"Smith".data, "J".data⟩)]) (by rfl) rfl

/-! ### Rendering lemmas -/

theorem insertNew_of_mem {α : Type} [DecidableEq α] {x : α} {s : List α}
    (h : x ∈ s) : insertNew x s = s := by
  simp [insertNew, h]

theorem insertNew_of_not_mem {α : Type} [DecidableEq α] {x : α} {s : List α}
    (h : x ∉ s) : insertNew x s = s ++ [x] := by
  simp [insertNew, h]

theorem nodeOrder_cons_pos (e : Edge) (es : List Edge) (seen : List Name)
    (he : popeFilter e = true) :
    nodeOrder (e :: es) seen = nodeOrder es (insertNew e.2 (insertNew e.1 seen)) := by
  simp only [nodeOrder]
  rw [if_pos he]
  rfl

theorem nodeOrder_cons_neg (e : Edge) (es : List Edge) (seen : List Name)
    (he : popeFilter e = false) :
    nodeOrder (e :: es) seen = nodeOrder es seen := by
  simp only [nodeOrder]
  rw [if_neg (by simp [he])]

theorem renderNodes_cons_pos (e : Edge) (es : List Edge) (seen : List Name)
    (he : popeFilter e = true) :
    renderNodes (e :: es) seen =
      ((if e.1 ∈ seen then [] else [Fragment.node e.1.display]) ++
       (if e.2 ∈ insertNew e.1 seen then [] else [Fragment.node e.2.display])) ++
      renderNodes es (insertNew e.2 (insertNew e.1 seen)) := by
  simp only [renderNodes]
  rw [if_pos he]
  rfl

theorem renderNodes_cons_neg (e : Edge) (es : List Edge) (seen : List Name)
    (he : popeFilter e = false) :
    renderNodes (e :: es) seen = renderNodes es seen := by
  simp only [renderNodes]
  rw [if_neg (by simp [he])]

theorem renderNodes_filter (es : List Edge) (seen : List Name) :
    renderNodes (es.filter popeFilter) seen = renderNodes es seen := by
  induction es generalizing seen with
  | nil => rfl
  | cons e es ih =>
    cases he : popeFilter e with
    | true =>
      rw [List.filter_cons_of_pos he,
        renderNodes_cons_pos e (es.filter popeFilter) seen he,
        renderNodes_cons_pos e es seen he, ih]
    | false =>
      rw [List.filter_cons_of_neg (by simp [he]),
        renderNodes_cons_neg e es seen he]
      exact ih seen

theorem renderEdges_eq_enumFrom (es : List Edge) (k : Nat) :
    renderEdges es k = (List.enumFrom k (es.filter popeFilter)).map
      (fun p => Fragment.edge p.1 p.2.1.display p.2.2.display) := by
  induction es generalizing k with
  | nil => rfl
  | cons e es ih =>
    by_cases he : popeFilter e = true
    · rw [List.filter_cons_of_pos he]
      simp only [renderEdges, he, if_true, List.enumFrom, List.map]
      rw [ih]
    · rw [List.filter_cons_of_neg (by simp [he])]
      simp only [renderEdges, he, if_false]
      exact ih k

theorem renderEdges_filter (es : List Edge) (k : Nat) :
    renderEdges (es.filter popeFilter) k = renderEdges es k := by
  rw [renderEdges_eq_enumFrom, renderEdges_eq_enumFrom, List.filter_filter]
  simp

theorem renderNodes_nodeOrder (es : List Edge) (seen : List Name) :
    ∃ new, nodeOrder es seen = seen ++ new ∧
      renderNodes es seen = new.map (fun n => Fragment.node n.display) := by
  induction es generalizing seen with
  | nil => exact ⟨[], by simp [nodeOrder], by simp [renderNodes]⟩
  | cons e es ih =>
    cases he : popeFilter e with
    | false =>
      obtain ⟨new, hno, hrn⟩ := ih seen
      exact ⟨new, by rw [nodeOrder_cons_neg e es seen he]; exact hno,
        by rw [renderNodes_cons_neg e es seen he]; exact hrn⟩
    | true =>
      by_cases h1 : e.1 ∈ seen
      · by_cases h2 : e.2 ∈ seen
        · obtain ⟨new, hno, hrn⟩ := ih seen
          refine ⟨new, ?_, ?_⟩
          · rw [nodeOrder_cons_pos e es seen he, insertNew_of_mem h1,
              insertNew_of_mem h2]
            exact hno
          · rw [renderNodes_cons_pos e es seen he, insertNew_of_mem h1,
              if_pos h1, if_pos h2, insertNew_of_mem h2]
            simpa using hrn
        · obtain ⟨new, hno, hrn⟩ := ih (seen ++ [e.2])
          refine ⟨e.2 :: new, ?_, ?_⟩
          · rw [nodeOrder_cons_pos e es seen he, insertNew_of_mem h1,
              insertNew_of_not_mem h2, hno]
            simp
          · rw [renderNodes_cons_pos e es seen he, insertNew_of_mem h1,
              if_pos h1, if_neg h2, insertNew_of_not_mem h2, hrn]
            simp
      · by_cases h2 : e.2 ∈ seen ++ [e.1]
        · obtain ⟨new, hno, hrn⟩ := ih (seen ++ [e.1])
          refine ⟨e.1 :: new, ?_, ?_⟩
          · rw [nodeOrder_cons_pos e es seen he, insertNew_of_not_mem h1,
              insertNew_of_mem h2, hno]
            simp
          · rw [renderNodes_cons_pos e es seen he, insertNew_of_not_mem h1,
              if_neg h1, if_pos h2, insertNew_of_mem h2, hrn]
            simp
        · obtain ⟨new, hno, hrn⟩ := ih ((seen ++ [e.1]) ++ [e.2])
          refine ⟨e.1 :: e.2 :: new, ?_, ?_⟩
          · rw [nodeOrder_cons_pos e es seen he, insertNew_of_not_mem h1,
              insertNew_of_not_mem h2, hno]
            simp
          · rw [renderNodes_cons_pos e es seen he, insertNew_of_not_mem h1,
              if_neg h1, if_neg h2, insertNew_of_not_mem h2, hrn]
            simp

theorem nodeOrder_nodup (es : List Edge) (seen : List Name)
    (h : seen.Nodup) : (nodeOrder es seen).Nodup := by
  induction es generalizing seen with
  | nil => simpa [nodeOrder] using h
  | cons e es ih =>
    cases he : popeFilter e with
    | true =>
      rw [nodeOrder_cons_pos e es seen he]
      exact ih _ (insertNew_nodup (insertNew_nodup h))
    | false =>
      rw [nodeOrder_cons_neg e es seen he]
      exact ih _ h

theorem mem_nodeOrder (es : List Edge) (seen : List Name) (n : Name) :
    n ∈ nodeOrder es seen ↔ n ∈ seen ∨
      ∃ e ∈ es, popeFilter e = true ∧ (n = e.1 ∨ n = e.2) := by
  induction es generalizing seen with
  | nil => simp [nodeOrder]
  | cons e es ih =>
    cases he : popeFilter e with
    | true =>
      rw [nodeOrder_cons_pos e es seen he, ih, mem_insertNew, mem_insertNew]
      simp only [List.mem_cons]
      constructor
      · rintro (((h | rfl) | rfl) | ⟨e2, h2, h3⟩)
        · exact Or.inl h
        · exact Or.inr ⟨e, Or.inl rfl, he, Or.inl rfl⟩
        · exact Or.inr ⟨e, Or.inl rfl, he, Or.inr rfl⟩
        · exact Or.inr ⟨e2, Or.inr h2, h3⟩
      · rintro (h | ⟨e2, (rfl | h2), hpf, (rfl | rfl)⟩)
        · exact Or.inl (Or.inl (Or.inl h))
        · exact Or.inl (Or.inl (Or.inr rfl))
        · exact Or.inl (Or.inr rfl)
        · exact Or.inr ⟨e2, h2, hpf, Or.inl rfl⟩
        · exact Or.inr ⟨e2, h2, hpf, Or.inr rfl⟩
    | false =>
      rw [nodeOrder_cons_neg e es seen he, ih]
      simp only [List.mem_cons]
      constructor
      · rintro (h | ⟨e2, h2, h3⟩)
        · exact Or.inl h
        · exact Or.inr ⟨e2, Or.inr h2, h3⟩
      · rintro (h | ⟨e2, (rfl | h2), hpf, hn⟩)
        · exact Or.inl h
        · rw [hpf] at he
          simp at he
        · exact Or.inr ⟨e2, h2, hpf, hn⟩

/-! ### Claim C7: an edge is rendered iff an endpoint is the target surname -/

/-- C7: the rendered output only depends on the edges with at least one
endpoint whose `last` is exactly `"Pope"` (case-sensitive): filtering
the others out first changes nothing, so they emit neither node nor edge
fragments; and there is exactly one edge fragment per included edge. -/
theorem render_filter_iff (a : List Name) (es : List Edge) :
    render_to_json a es = render_to_json a (es.filter popeFilter) ∧
    (render_to_json a es).countP isEdgeFrag = (es.filter popeFilter).length := by
  constructor
  · unfold render_to_json
    rw [renderNodes_filter, renderEdges_filter]
  · unfold render_to_json
    rw [List.countP_append]
    obtain ⟨new, _, hrn⟩ := renderNodes_nodeOrder es []
    rw [hrn, renderEdges_eq_enumFrom]
    rw [List.countP_map, List.countP_map]
    have h1 : List.countP (isEdgeFrag ∘ fun n => Fragment.node n.display) new = 0 := by
      simp [Function.comp, isEdgeFrag]
    have h2 : List.countP
        (isEdgeFrag ∘ fun p : Nat × Edge => Fragment.edge p.1 p.2.1.display p.2.2.display)
        (List.enumFrom 0 (es.filter popeFilter)) =
        (List.enumFrom 0 (es.filter popeFilter)).length := by
      rw [List.countP_eq_length]
      intro p _
      simp [Function.comp, isEdgeFrag]
    rw [h1, h2, List.enumFrom_length]
    exact Nat.zero_add _

/-! ### Claim C8: the two-pass structure of the rendering -/

/-- C8: the rendering is node fragments first — one per distinct Name
among the endpoints of the included edges, in first-seen order — then
edge fragments, one per included edge in order, with consecutive ids
starting at 0 and the endpoints' display strings as source and target. -/
theorem render_two_pass (a : List Name) (es : List Edge) :
    render_to_json a es =
      (nodeOrder es []).map (fun n => Fragment.node n.display) ++
      (List.enumFrom 0 (es.filter popeFilter)).map
        (fun p => Fragment.edge p.1 p.2.1.display p.2.2.display) ∧
    (nodeOrder es []).Nodup ∧
    (∀ n : Name, n ∈ nodeOrder es [] ↔
      ∃ e ∈ es, popeFilter e = true ∧ (n = e.1 ∨ n = e.2)) := by
  refine ⟨?_, nodeOrder_nodup es [] List.nodup_nil, fun n => ?_⟩
  · unfold render_to_json
    obtain ⟨new, hno, hrn⟩ := renderNodes_nodeOrder es []
    rw [hrn, renderEdges_eq_enumFrom, hno]
    simp
  · rw [mem_nodeOrder]
    simp

/-! ### Claim C10: the rendering ignores the author-set argument -/

/-- C10: the filtered-subgraph rendering depends only on the edge set —
the `all_authors` argument is never consulted — and every node fragment
displays an endpoint of some included edge, so an author with no
co-authorship edge never emits a node fragment, whatever their surname. -/
theorem render_ignores_author_set (a1 a2 : List Name) (es : List Edge) :
    render_to_json a1 es = render_to_json a2 es ∧
    (∀ s : Str, Fragment.node s ∈ render_to_json a1 es →
      ∃ e ∈ es, popeFilter e = true ∧ (s = e.1.display ∨ s = e.2.display)) := by
  refine ⟨rfl, fun s hs => ?_⟩
  unfold render_to_json at hs
  rw [List.mem_append] at hs
  rcases hs with hs | hs
  · obtain ⟨new, hno, hrn⟩ := renderNodes_nodeOrder es []
    rw [hrn, List.mem_map] at hs
    obtain ⟨n, hn, heq⟩ := hs
    have hmem : n ∈ nodeOrder es [] := by
      rw [hno]
      simpa using hn
    rw [mem_nodeOrder] at hmem
    simp only [List.not_mem_nil, false_or] at hmem
    obtain ⟨e, hes, hpf, hn12⟩ := hmem
    refine ⟨e, hes, hpf, ?_⟩
    rcases hn12 with rfl | rfl
    · exact Or.inl (by injection heq.symm)
    · exact Or.inr (by injection heq.symm)
  · rw [renderEdges_eq_enumFrom, List.mem_map] at hs
    obtain ⟨p, _, heq⟩ := hs
    cases heq

/-- C10 witness: the second part applied at a concrete rendered node. -/
theorem render_ignores_author_set_witness :
    ∃ e ∈ [((⟨"Pope".data, "B".data⟩ : Name), (⟨"Smith".data, "J".data⟩ : Name))],
      popeFilter e = true ∧
      ("B Pope".data = e.1.display ∨ "B Pope".data = e.2.display) :=
  (render_ignores_author_set [] [⟨"Lee".data, "A".data⟩]
    [(⟨"Pope".data, "B".data⟩, ⟨"Smith".data, "J".data⟩)]).2
    ("B Pope".data) (by decide)

/-! ### Claim C4: the frequency-table rendering (spec-modelled variant B) -/

theorem bumpCount_keys (freq : List (Name × Nat)) (n : Name) :
    (bumpCount freq n).map Prod.fst = insertNew n (freq.map Prod.fst) := by
  induction freq with
  | nil => rfl
  | cons p rest ih =>
    obtain ⟨m, c⟩ := p
    by_cases hmn : m = n
    · subst hmn
      simp [bumpCount, insertNew]
    · simp only [bumpCount]
      rw [if_neg hmn]
      simp only [List.map_cons]
      rw [ih]
      by_cases hn : n ∈ rest.map Prod.fst
      · rw [insertNew_of_mem hn, insertNew_of_mem (by simp [hn])]
      · rw [insertNew_of_not_mem hn, insertNew_of_not_mem ?_]
        · simp
        · simp only [List.mem_cons]
          rintro (rfl | h)
          · exact hmn rfl
          · exact hn h

theorem foldl_bumpCount_keys (names : List Name) (freq : List (Name × Nat)) :
    (names.foldl bumpCount freq).map Prod.fst =
      names.foldl (fun acc n => insertNew n acc) (freq.map Prod.fst) := by
  induction names generalizing freq with
  | nil => rfl
  | cons n ns ih =>
    simp only [List.foldl_cons]
    rw [ih, bumpCount_keys]

theorem buildFrequency_keys_nodup :
    ∀ (entries : List Entry) (freq freq2 : List (Name × Nat)),
      (freq.map Prod.fst).Nodup →
      build_frequency freq entries = .ok freq2 →
      (freq2.map Prod.fst).Nodup
  | [], freq, freq2, h, heq => by
    unfold build_frequency at heq
    cases heq
    exact h
  | e :: es, freq, freq2, h, heq => by
    unfold build_frequency at heq
    split at heq
    · cases heq
    · rename_i freq1 hb
      refine buildFrequency_keys_nodup es freq1 freq2 ?_ heq
      unfold buildFrequencyEntry at hb
      split at hb
      · cases hb
      · split at hb
        · cases hb
        · cases hb
          rw [foldl_bumpCount_keys]
          exact foldl_insertNew_nodup (fun n => n) _ _ h

/-- C4 (spec-modelled): for every frequency map produced from the
entries, the rendered output consists of exactly one line per distinct
Name, each of the form display-string followed by a space and the count,
and the lines appear in ascending `(last, first)` Name order. -/
theorem frequency_render_sorted (entries : List Entry)
    (freq : List (Name × Nat))
    (h : build_frequency [] entries = .ok freq) :
    ∃ sortedFreq : List (Name × Nat),
      sortedFreq.Perm freq ∧
      render_frequency freq = sortedFreq.map freqLine ∧
      sortedFreq.Pairwise freqOrder ∧
      (freq.map Prod.fst).Nodup := by
  refine ⟨List.insertionSort freqOrder freq, List.perm_insertionSort _ _, rfl,
    ?_, ?_⟩
  · exact List.sorted_insertionSort freqOrder freq
  · exact buildFrequency_keys_nodup entries [] freq (by simp) h

/-- C4 witness: the theorem applied to two concrete entries, matching the
spec's ordering example (the line for `B Ng` precedes the line for
`A Zed`). -/
theorem frequency_render_sorted_witness :
    ∃ sortedFreq : List (Name × Nat),
      sortedFreq.Perm [(⟨"Zed".data, "A".data⟩, 2), (⟨"Ng".data, "B".data⟩, 1)] ∧
      render_frequency [(⟨"Zed".data, "A".data⟩, 2), (⟨"Ng".data, "B".data⟩, 1)] =
        sortedFreq.map freqLine ∧
      sortedFreq.Pairwise freqOrder ∧
      (([(⟨"Zed".data, "A".data⟩, 2), (⟨"Ng".data, "B".data⟩, 1)] :
        List (Name × Nat)).map Prod.fst).Nodup :=
  frequency_render_sorted
    [⟨some "Zed, Alice and Ng, Bob".data⟩, ⟨some "Zed, Alice".data⟩]
    [(⟨"Zed".data, "A".data⟩, 2), (⟨"Ng".data, "B".data⟩, 1)] (by rfl)

end Coauth
